import Mathlib

/-!
Verification of the `csv-line` single-line CSV scanner and decode facade.

The scanner (`src/parse.rs`, `CsvRow`) is embedded shallowly: the input line
is a `List Char`, and all cursor positions are character indices.  The Rust
code measures positions in bytes, but every offset it ever adds or subtracts
crosses exactly one character (the one-byte quote `"`, or the delimiter whose
encoded length `delimiter_len` is added exactly when that delimiter was the
character just consumed), so character indices are position-faithful.
`Cow` mirrors Rust's borrowed/owned distinction for produced fields.
-/

/-- Scanner state, mirroring `enum ParseState` in `src/parse.rs`. -/
inductive ParseState where
  | NewField
  | UnquotedField
  | QuotedField
  | QuoteInQuotedField
  | UnquotedDataAfterQuotedField (start : Nat)
deriving DecidableEq

/-- Mirrors `std::borrow::Cow<str>`: a field is either a borrowed view of the
input line or an owned copy. -/
inductive Cow where
  | borrowed (s : List Char)
  | owned (s : List Char)
deriving DecidableEq

/-- The character content of a field, forgetting borrowed/owned. -/
def Cow.val : Cow → List Char
  | .borrowed s => s
  | .owned s => s

/-- Whether the field is a borrowed view. -/
def Cow.isBorrowed : Cow → Bool
  | .borrowed _ => true
  | .owned _ => false

/-- Rust slicing `line[s..e]` on the character-list model. -/
def lineSlice (line : List Char) (s e : Nat) : List Char :=
  (line.take e).drop s

/-- Mirrors `str::replace("\"\"", "\"")`: collapse each leftmost
non-overlapping doubled quote into a single quote. -/
def unescape : List Char → List Char
  | '"' :: '"' :: rest => '"' :: unescape rest
  | c :: rest => c :: unescape rest
  | [] => []

/-- Mirrors `CsvRow::maybe_unescape`: the slice `line[s..e]`, copied with
doubled quotes collapsed when `flag` (`column_needs_unescaping`) is set. -/
def maybe_unescape (line : List Char) (flag : Bool) (s e : Nat) : Cow :=
  if flag then .owned (unescape (lineSlice line s e)) else .borrowed (lineSlice line s e)

/-- Mirrors `CsvRow::format_partially_unquoted`: the (possibly unescaped)
quoted portion `line[cs+1..us-1]` concatenated with the verbatim trailing
unquoted portion `line[us..e]`; always an owned copy. -/
def format_partly_unquoted (line : List Char) (flag : Bool) (cs us e : Nat) : Cow :=
  .owned ((maybe_unescape line flag (cs + 1) (us - 1)).val ++ lineSlice line us e)

/-- Result of one `next` call: the produced field (if any) together with the
updated cursor state. -/
structure ScanOut where
  field : Option Cow
  rest : List Char
  pos : Nat
  cs : Nat
  done : Bool
deriving DecidableEq

/-- The character-consuming loop inside `CsvRow::next`.  `rest` is the
unconsumed suffix of `line`, `pos` the index in `line` of its head, `cs` the
field start (`column_start`), `flag` is `column_needs_unescaping`. -/
def nextLoop (line : List Char) (delim : Char) :
    List Char → Nat → Nat → Bool → ParseState → ScanOut
  | [], pos, cs, flag, state =>
    match state with
    | .NewField =>
      ⟨if line.getLast? = some delim then some (.borrowed []) else none,
        [], pos, cs, true⟩
    | .UnquotedField => ⟨some (.borrowed (line.drop cs)), [], pos, cs, true⟩
    | .QuotedField =>
      ⟨some (maybe_unescape line flag (cs + 1) line.length), [], pos, cs, true⟩
    | .QuoteInQuotedField =>
      ⟨some (maybe_unescape line flag (cs + 1) (line.length - 1)), [], pos, cs, true⟩
    | .UnquotedDataAfterQuotedField us =>
      ⟨some (format_partly_unquoted line flag cs us line.length), [], pos, cs, true⟩
  | c :: rest, pos, cs, flag, state =>
    match state with
    | .NewField =>
      if c = delim then ⟨some (.borrowed []), rest, pos + 1, pos + 1, false⟩
      else if c = '"' then nextLoop line delim rest (pos + 1) cs flag .QuotedField
      else nextLoop line delim rest (pos + 1) cs flag .UnquotedField
    | .UnquotedField =>
      if c = delim then
        ⟨some (.borrowed (lineSlice line cs pos)), rest, pos + 1, pos + 1, false⟩
      else if c = '\n' ∨ c = '\r' then
        ⟨some (.borrowed (lineSlice line cs pos)), rest, pos + 1, cs, true⟩
      else nextLoop line delim rest (pos + 1) cs flag .UnquotedField
    | .QuotedField =>
      if c = '"' then nextLoop line delim rest (pos + 1) cs flag .QuoteInQuotedField
      else nextLoop line delim rest (pos + 1) cs flag .QuotedField
    | .QuoteInQuotedField =>
      if c = '"' then nextLoop line delim rest (pos + 1) cs true .QuotedField
      else if c = delim then
        ⟨some (maybe_unescape line flag (cs + 1) (pos - 1)), rest, pos + 1, pos + 1, false⟩
      else if c = '\n' ∨ c = '\r' then
        ⟨some (maybe_unescape line flag (cs + 1) (pos - 1)), rest, pos + 1, cs, true⟩
      else nextLoop line delim rest (pos + 1) cs flag (.UnquotedDataAfterQuotedField pos)
    | .UnquotedDataAfterQuotedField us =>
      if c = delim then
        ⟨some (format_partly_unquoted line flag cs us pos), rest, pos + 1, pos + 1, false⟩
      else nextLoop line delim rest (pos + 1) cs flag (.UnquotedDataAfterQuotedField us)

/-- Mirrors `struct CsvRow`: the borrowed line, the delimiter, and the cursor
(remaining characters, absolute position, `column_start`, `done`). -/
structure CsvRow where
  line : List Char
  delimiter : Char
  rest : List Char
  pos : Nat
  column_start : Nat
  done : Bool
deriving DecidableEq

/-- Mirrors `CsvRow::new`. -/
def CsvRow.new (line : List Char) (delimiter : Char) : CsvRow :=
  ⟨line, delimiter, line, 0, 0, false⟩

/-- Mirrors `<CsvRow as Iterator>::next`: each call re-enters the state
machine at `NewField` with `column_needs_unescaping` reset. -/
def CsvRow.next (r : CsvRow) : Option Cow × CsvRow :=
  if r.done then (none, r)
  else
    let o := nextLoop r.line r.delimiter r.rest r.pos r.column_start false .NewField
    (o.field, ⟨r.line, r.delimiter, o.rest, o.pos, o.cs, o.done⟩)

/-- Drive the iterator, collecting fields until it yields `none`.  The fuel is
an upper bound on the number of `next` calls; `line.length + 1` always
suffices, as every produced field except the last consumes a character. -/
def scanGo : Nat → CsvRow → List Cow
  | 0, _ => []
  | fuel + 1, r =>
    match r.next with
    | (none, _) => []
    | (some f, r') => f :: scanGo fuel r'

/-- All fields the scanner produces for `line` with delimiter `delim`. -/
def scanAll (line : List Char) (delim : Char) : List Cow :=
  scanGo (line.length + 1) (CsvRow.new line delim)

/-- The ordered field-value sequence handed to the deserializer, mirroring
`StringRecord::from_iter(CsvRow::new(s, sep))` in `CSVLine::decode_str`. -/
def recordOf (line : List Char) (delim : Char) : List (List Char) :=
  (scanAll line delim).map Cow.val

/-- Mirrors `enum Error` in `src/lib.rs`: a single wrapper around the
external deserializer's error. -/
inductive Error (ε : Type) where
  | Csv (e : ε)

/-- Mirrors `CSVLine::decode_str`, with the external `serde`/`csv`
deserializer abstracted as a function `des` from the scanned record to a
typed value or an error. -/
def decode_str {ε α : Type} (des : List (List Char) → Except ε α)
    (s : List Char) (sep : Char) : Except (Error ε) α :=
  match des (recordOf s sep) with
  | .ok v => .ok v
  | .error e => .error (.Csv e)

/-- Naive split of a character list at every occurrence of `d` (the split of
the empty list is one empty piece, as for Rust's `str::split`). -/
def splitOnChar (d : Char) : List Char → List (List Char)
  | [] => [[]]
  | c :: cs =>
    if c = d then [] :: splitOnChar d cs
    else
      match splitOnChar d cs with
      | [] => [[c]]
      | f :: rest => (c :: f) :: rest

/-- Double every quote character, the RFC-4180 escaping step. -/
def doubleQuotes : List Char → List Char
  | [] => []
  | c :: rest =>
    if c = '"' then '"' :: '"' :: doubleQuotes rest else c :: doubleQuotes rest

/-- RFC-4180 encoding of a single field: wrap in quotes, double every
embedded quote. -/
def encodeRFC (s : List Char) : List Char :=
  '"' :: doubleQuotes s ++ ['"']

/-- Whether a character list contains a quote. -/
def hasQuote : List Char → Bool
  | [] => false
  | c :: rest => if c = '"' then true else hasQuote rest

/-- `SubSeg s l` states that `s` is a contiguous segment of `l`, i.e. the
content of a borrowed view into `l`. -/
def SubSeg (s l : List Char) : Prop :=
  ∃ a b, l = a ++ s ++ b

/-- Checked slicing: `none` models an out-of-range Rust byte-slice panic
(`start > end` or `end > len`). -/
def lineSliceChecked (line : List Char) (s e : Nat) : Option (List Char) :=
  if s ≤ e ∧ e ≤ line.length then some (lineSlice line s e) else none

/-- Checked subtraction: `none` models a `usize` underflow panic. -/
def subChecked (a b : Nat) : Option Nat :=
  if b ≤ a then some (a - b) else none

/-- `maybe_unescape` with checked slicing. -/
def maybe_unescapeChecked (line : List Char) (flag : Bool) (s e : Nat) : Option Cow :=
  (lineSliceChecked line s e).map fun content =>
    if flag then .owned (unescape content) else .borrowed content

/-- `format_partly_unquoted` with checked subtraction and slicing. -/
def format_partly_unquotedChecked (line : List Char) (flag : Bool) (cs us e : Nat) :
    Option Cow := do
  let usm ← subChecked us 1
  let q ← maybe_unescapeChecked line flag (cs + 1) usm
  let u ← lineSliceChecked line us e
  return .owned (q.val ++ u)

/-- Checked suffix slice `line[cs..]`. -/
def dropChecked (line : List Char) (cs : Nat) : Option (List Char) :=
  if cs ≤ line.length then some (line.drop cs) else none

/-- `nextLoop` with every Rust slicing operation and `usize` subtraction
guarded; `none` models a panic. -/
def nextLoopChecked (line : List Char) (delim : Char) :
    List Char → Nat → Nat → Bool → ParseState → Option ScanOut
  | [], pos, cs, flag, state =>
    match state with
    | .NewField =>
      some ⟨if line.getLast? = some delim then some (.borrowed []) else none,
        [], pos, cs, true⟩
    | .UnquotedField =>
      (dropChecked line cs).map fun t => ⟨some (.borrowed t), [], pos, cs, true⟩
    | .QuotedField =>
      (maybe_unescapeChecked line flag (cs + 1) line.length).map fun f =>
        ⟨some f, [], pos, cs, true⟩
    | .QuoteInQuotedField => do
      let e ← subChecked line.length 1
      let f ← maybe_unescapeChecked line flag (cs + 1) e
      return ⟨some f, [], pos, cs, true⟩
    | .UnquotedDataAfterQuotedField us =>
      (format_partly_unquotedChecked line flag cs us line.length).map fun f =>
        ⟨some f, [], pos, cs, true⟩
  | c :: rest, pos, cs, flag, state =>
    match state with
    | .NewField =>
      if c = delim then some ⟨some (.borrowed []), rest, pos + 1, pos + 1, false⟩
      else if c = '"' then nextLoopChecked line delim rest (pos + 1) cs flag .QuotedField
      else nextLoopChecked line delim rest (pos + 1) cs flag .UnquotedField
    | .UnquotedField =>
      if c = delim then
        (lineSliceChecked line cs pos).map fun t =>
          ⟨some (.borrowed t), rest, pos + 1, pos + 1, false⟩
      else if c = '\n' ∨ c = '\r' then
        (lineSliceChecked line cs pos).map fun t =>
          ⟨some (.borrowed t), rest, pos + 1, cs, true⟩
      else nextLoopChecked line delim rest (pos + 1) cs flag .UnquotedField
    | .QuotedField =>
      if c = '"' then nextLoopChecked line delim rest (pos + 1) cs flag .QuoteInQuotedField
      else nextLoopChecked line delim rest (pos + 1) cs flag .QuotedField
    | .QuoteInQuotedField =>
      if c = '"' then nextLoopChecked line delim rest (pos + 1) cs true .QuotedField
      else if c = delim then do
        let e ← subChecked pos 1
        let f ← maybe_unescapeChecked line flag (cs + 1) e
        return ⟨some f, rest, pos + 1, pos + 1, false⟩
      else if c = '\n' ∨ c = '\r' then do
        let e ← subChecked pos 1
        let f ← maybe_unescapeChecked line flag (cs + 1) e
        return ⟨some f, rest, pos + 1, cs, true⟩
      else nextLoopChecked line delim rest (pos + 1) cs flag (.UnquotedDataAfterQuotedField pos)
    | .UnquotedDataAfterQuotedField us =>
      if c = delim then
        (format_partly_unquotedChecked line flag cs us pos).map fun f =>
          ⟨some f, rest, pos + 1, pos + 1, false⟩
      else nextLoopChecked line delim rest (pos + 1) cs flag (.UnquotedDataAfterQuotedField us)

/-- `CsvRow.next` with checked operations. -/
def CsvRow.nextChecked (r : CsvRow) : Option (Option Cow × CsvRow) :=
  if r.done then some (none, r)
  else
    (nextLoopChecked r.line r.delimiter r.rest r.pos r.column_start false .NewField).map
      fun o => (o.field, ⟨r.line, r.delimiter, o.rest, o.pos, o.cs, o.done⟩)

/-- `scanGo` with checked operations; `none` models a panic anywhere during
the scan. -/
def scanGoChecked : Nat → CsvRow → Option (List Cow)
  | 0, _ => some []
  | fuel + 1, r =>
    match r.nextChecked with
    | none => none
    | some (none, _) => some []
    | some (some f, r') => (scanGoChecked fuel r').map (f :: ·)

/-- `scanAll` with checked operations. -/
def scanAllChecked (line : List Char) (delim : Char) : Option (List Cow) :=
  scanGoChecked (line.length + 1) (CsvRow.new line delim)

/-- Numeric invariant each scanner state maintains between the field start
`cs` and the cursor `pos` (e.g. in `QuoteInQuotedField` both the opening and
a second quote have been consumed). -/
def StInv (pos cs : Nat) : ParseState → Prop
  | .NewField => cs ≤ pos
  | .UnquotedField => cs ≤ pos
  | .QuotedField => cs + 1 ≤ pos
  | .QuoteInQuotedField => cs + 2 ≤ pos
  | .UnquotedDataAfterQuotedField us => cs + 2 ≤ us ∧ us ≤ pos

/-- `ScanOut` extended with, per emitted field, the allocation cause: the
tag is `true` iff producing the field performed doubled-quote un-escaping or
quoted/unquoted concatenation. -/
structure ScanOutTagged where
  field : Option (Cow × Bool)
  rest : List Char
  pos : Nat
  cs : Nat
  done : Bool
deriving DecidableEq

/-- Forget the allocation-cause tags. -/
def ScanOutTagged.eraseTag (o : ScanOutTagged) : ScanOut :=
  ⟨o.field.map Prod.fst, o.rest, o.pos, o.cs, o.done⟩

/-- `nextLoop` instrumented with the allocation cause of each emission: the
tag is the `column_needs_unescaping` flag at every `maybe_unescape` site,
`true` at every `format_partially_unquoted` (concatenation) site, and
`false` at every plain-slice site.  Arm for arm the same state machine as
`CsvRow::next`. -/
def nextLoopTagged (line : List Char) (delim : Char) :
    List Char → Nat → Nat → Bool → ParseState → ScanOutTagged
  | [], pos, cs, flag, state =>
    match state with
    | .NewField =>
      ⟨if line.getLast? = some delim then some (.borrowed [], false) else none,
        [], pos, cs, true⟩
    | .UnquotedField => ⟨some (.borrowed (line.drop cs), false), [], pos, cs, true⟩
    | .QuotedField =>
      ⟨some (maybe_unescape line flag (cs + 1) line.length, flag), [], pos, cs, true⟩
    | .QuoteInQuotedField =>
      ⟨some (maybe_unescape line flag (cs + 1) (line.length - 1), flag), [], pos, cs, true⟩
    | .UnquotedDataAfterQuotedField us =>
      ⟨some (format_partly_unquoted line flag cs us line.length, true), [], pos, cs, true⟩
  | c :: rest, pos, cs, flag, state =>
    match state with
    | .NewField =>
      if c = delim then ⟨some (.borrowed [], false), rest, pos + 1, pos + 1, false⟩
      else if c = '"' then nextLoopTagged line delim rest (pos + 1) cs flag .QuotedField
      else nextLoopTagged line delim rest (pos + 1) cs flag .UnquotedField
    | .UnquotedField =>
      if c = delim then
        ⟨some (.borrowed (lineSlice line cs pos), false), rest, pos + 1, pos + 1, false⟩
      else if c = '\n' ∨ c = '\r' then
        ⟨some (.borrowed (lineSlice line cs pos), false), rest, pos + 1, cs, true⟩
      else nextLoopTagged line delim rest (pos + 1) cs flag .UnquotedField
    | .QuotedField =>
      if c = '"' then nextLoopTagged line delim rest (pos + 1) cs flag .QuoteInQuotedField
      else nextLoopTagged line delim rest (pos + 1) cs flag .QuotedField
    | .QuoteInQuotedField =>
      if c = '"' then nextLoopTagged line delim rest (pos + 1) cs true .QuotedField
      else if c = delim then
        ⟨some (maybe_unescape line flag (cs + 1) (pos - 1), flag), rest, pos + 1,
          pos + 1, false⟩
      else if c = '\n' ∨ c = '\r' then
        ⟨some (maybe_unescape line flag (cs + 1) (pos - 1), flag), rest, pos + 1, cs, true⟩
      else nextLoopTagged line delim rest (pos + 1) cs flag (.UnquotedDataAfterQuotedField pos)
    | .UnquotedDataAfterQuotedField us =>
      if c = delim then
        ⟨some (format_partly_unquoted line flag cs us pos, true), rest, pos + 1,
          pos + 1, false⟩
      else nextLoopTagged line delim rest (pos + 1) cs flag (.UnquotedDataAfterQuotedField us)

/-- `CsvRow.next` with the allocation-cause tag. -/
def CsvRow.nextTagged (r : CsvRow) : Option (Cow × Bool) × CsvRow :=
  if r.done then (none, r)
  else
    let o := nextLoopTagged r.line r.delimiter r.rest r.pos r.column_start false .NewField
    (o.field, ⟨r.line, r.delimiter, o.rest, o.pos, o.cs, o.done⟩)

/-- Drive the tagged iterator. -/
def scanGoTagged : Nat → CsvRow → List (Cow × Bool)
  | 0, _ => []
  | fuel + 1, r =>
    match r.nextTagged with
    | (none, _) => []
    | (some p, r') => p :: scanGoTagged fuel r'

/-- All fields the scanner produces, each paired with whether producing it
performed un-escaping or concatenation. -/
def scanAllTagged (line : List Char) (delim : Char) : List (Cow × Bool) :=
  scanGoTagged (line.length + 1) (CsvRow.new line delim)

example : recordOf ['f','o','o',',','b','a','r'] ',' = [['f','o','o'], ['b','a','r']] := by
  decide

example : recordOf [',',','] ',' = [[], [], []] := by decide

example : recordOf ['"','f','o','o','"',',','b','a','r'] ',' =
    [['f','o','o'], ['b','a','r']] := by decide

example : recordOf ['"','a','"','"','b','"'] ',' = [['a','"','b']] := by decide

example : recordOf ['"','f',',','o','o','"'] ',' = [['f',',','o','o']] := by decide

example : recordOf ['f','o','o','\n','b','a','r'] ',' = [['f','o','o']] := by decide

example : recordOf ['"','f','o','o','"',' ',',','b'] ',' =
    [['f','o','o',' '], ['b']] := by decide

example : recordOf ['f','o','o',','] ',' = [['f','o','o'], []] := by decide

example : recordOf [] ',' = [] := by decide

example : scanAllTagged ['"', 'a', '"', '"', 'b', '"', ',', 'c'] ',' =
    [(Cow.owned ['a', '"', 'b'], true), (Cow.borrowed ['c'], false)] := by decide

example : scanAllTagged ['"', 'a', '"', 'x'] ',' =
    [(Cow.owned ['a', 'x'], true)] := by decide

example : recordOf ['"','a','\n','b','"',',','x'] ',' = [['a','\n','b'], ['x']] := by
  decide

theorem scanGo_done {r : CsvRow} (h : r.done = true) (fuel : Nat) : scanGo fuel r = [] := by
  cases fuel with
  | zero => rfl
  | succ fuel => simp [scanGo, CsvRow.next, h]

theorem lineSlice_append_mid (pre mid post : List Char) :
    lineSlice (pre ++ mid ++ post) pre.length (pre.length + mid.length) = mid := by
  unfold lineSlice
  rw [List.append_assoc, List.take_append, List.take_left, List.drop_left]

theorem lineSlice_of_parts {l pre mid post : List Char} {a b : Nat}
    (h : l = pre ++ mid ++ post) (ha : a = pre.length) (hb : b = pre.length + mid.length) :
    lineSlice l a b = mid := by
  subst h ha hb
  exact lineSlice_append_mid pre mid post

theorem subSeg_lineSlice (l : List Char) (a b : Nat) : SubSeg (lineSlice l a b) l :=
  ⟨(l.take b).take a, l.drop b, by
    show l = (l.take b).take a ++ (l.take b).drop a ++ l.drop b
    rw [List.take_append_drop, List.take_append_drop]⟩

theorem subSeg_drop (l : List Char) (n : Nat) : SubSeg (l.drop n) l :=
  ⟨l.take n, [], by rw [List.append_nil, List.take_append_drop]⟩

theorem subSeg_nil (l : List Char) : SubSeg [] l := ⟨[], l, rfl⟩

theorem unescape_cons_of_ne {c : Char} (h : ¬c = '"') (rest : List Char) :
    unescape (c :: rest) = c :: unescape rest := by
  rw [unescape.eq_def]
  split
  · rename_i heq
    injection heq with h1 _
    exact absurd h1 h
  · rename_i heq
    injection heq with h1 h2
    rw [← h1, ← h2]
  · rename_i heq
    exact absurd heq (by simp)

theorem unescape_doubleQuotes (s : List Char) : unescape (doubleQuotes s) = s := by
  induction s with
  | nil => rfl
  | cons c s ih =>
    by_cases hc : c = '"'
    · subst hc
      show unescape ('"' :: '"' :: doubleQuotes s) = '"' :: s
      rw [show unescape ('"' :: '"' :: doubleQuotes s) = '"' :: unescape (doubleQuotes s) from rfl, ih]
    · rw [doubleQuotes, if_neg hc, unescape_cons_of_ne hc, ih]

theorem doubleQuotes_of_hasQuote_eq_false {s : List Char} (h : hasQuote s = false) :
    doubleQuotes s = s := by
  induction s with
  | nil => rfl
  | cons c s ih =>
    rw [hasQuote] at h
    split at h
    · exact absurd h (by simp)
    · rename_i hc
      rw [doubleQuotes, if_neg hc, ih h]

theorem splitOnChar_ne_nil (d : Char) (l : List Char) : splitOnChar d l ≠ [] := by
  cases l with
  | nil => simp [splitOnChar]
  | cons c cs =>
    rw [splitOnChar]
    split
    · simp
    · split <;> simp

theorem splitOnChar_of_forall_ne {d : Char} {l : List Char} (h : ∀ c ∈ l, ¬c = d) :
    splitOnChar d l = [l] := by
  induction l with
  | nil => rfl
  | cons c cs ih =>
    rw [splitOnChar, if_neg (h c (.head _)), ih fun x hx => h x (.tail _ hx)]

theorem splitOnChar_first {d : Char} {a : List Char} (h : ∀ c ∈ a, ¬c = d) (b : List Char) :
    splitOnChar d (a ++ d :: b) = a :: splitOnChar d b := by
  induction a with
  | nil => simp [splitOnChar]
  | cons c a ih =>
    rw [List.cons_append, splitOnChar, if_neg (h c (.head _)),
      ih fun x hx => h x (.tail _ hx)]

theorem exists_first_mem {d : Char} {l : List Char} (h : d ∈ l) :
    ∃ a b, l = a ++ d :: b ∧ ∀ c ∈ a, ¬c = d := by
  induction l with
  | nil => cases h
  | cons c l ih =>
    by_cases hc : c = d
    · exact ⟨[], l, by rw [hc]; rfl, by simp⟩
    · have hd : d ∈ l := by
        cases h with
        | head => exact absurd rfl hc
        | tail _ h => exact h
      obtain ⟨a, b, hab, hane⟩ := ih hd
      exact ⟨c :: a, b, by rw [hab]; rfl, by
        intro x hx
        cases hx with
        | head => exact hc
        | tail _ hx => exact hane x hx⟩

theorem run_unquoted_exhaust {line : List Char} {d : Char} {t : List Char}
    (ht : ∀ c ∈ t, ¬c = d ∧ ¬c = '\n' ∧ ¬c = '\r') :
    ∀ pos cs flag, nextLoop line d t pos cs flag .UnquotedField =
      ⟨some (.borrowed (line.drop cs)), [], pos + t.length, cs, true⟩ := by
  induction t with
  | nil => intro pos cs flag; simp [nextLoop]
  | cons c t ih =>
    intro pos cs flag
    obtain ⟨h1, h2, h3⟩ := ht c (.head _)
    simp only [nextLoop]
    rw [if_neg h1, if_neg (not_or.mpr ⟨h2, h3⟩),
      ih (fun x hx => ht x (.tail _ hx)) (pos + 1) cs flag]
    simp only [List.length_cons]
    rw [show pos + (t.length + 1) = pos + 1 + t.length from by omega]

theorem run_unquoted_delim {line : List Char} {d : Char} {a : List Char}
    (ha : ∀ c ∈ a, ¬c = d ∧ ¬c = '\n' ∧ ¬c = '\r') :
    ∀ b pos cs flag, nextLoop line d (a ++ d :: b) pos cs flag .UnquotedField =
      ⟨some (.borrowed (lineSlice line cs (pos + a.length))), b,
        pos + a.length + 1, pos + a.length + 1, false⟩ := by
  induction a with
  | nil => intro b pos cs flag; simp [nextLoop]
  | cons c a ih =>
    intro b pos cs flag
    obtain ⟨h1, h2, h3⟩ := ha c (.head _)
    simp only [List.cons_append, nextLoop, List.append_eq]
    rw [if_neg h1, if_neg (not_or.mpr ⟨h2, h3⟩),
      ih (fun x hx => ha x (.tail _ hx)) b (pos + 1) cs flag]
    simp only [List.length_cons]
    rw [show pos + (a.length + 1) = pos + 1 + a.length from by omega]

theorem run_unquoted_nl {line : List Char} {d : Char} {a : List Char}
    (ha : ∀ c ∈ a, ¬c = d ∧ ¬c = '\n' ∧ ¬c = '\r')
    {nl : Char} (hnl : nl = '\n' ∨ nl = '\r') (hnd : ¬nl = d) :
    ∀ t pos cs flag, nextLoop line d (a ++ nl :: t) pos cs flag .UnquotedField =
      ⟨some (.borrowed (lineSlice line cs (pos + a.length))), t,
        pos + a.length + 1, cs, true⟩ := by
  induction a with
  | nil =>
    intro t pos cs flag
    simp only [List.nil_append, nextLoop]
    rw [if_neg hnd, if_pos hnl]
    simp
  | cons c a ih =>
    intro t pos cs flag
    obtain ⟨h1, h2, h3⟩ := ha c (.head _)
    simp only [List.cons_append, nextLoop, List.append_eq]
    rw [if_neg h1, if_neg (not_or.mpr ⟨h2, h3⟩),
      ih (fun x hx => ha x (.tail _ hx)) t (pos + 1) cs flag]
    simp only [List.length_cons]
    rw [show pos + (a.length + 1) = pos + 1 + a.length from by omega]

theorem run_quoted_double {line : List Char} {d : Char} (s : List Char) :
    ∀ r pos cs flag,
      nextLoop line d (doubleQuotes s ++ '"' :: r) pos cs flag .QuotedField =
      nextLoop line d r (pos + (doubleQuotes s).length + 1) cs (flag || hasQuote s)
        .QuoteInQuotedField := by
  induction s with
  | nil =>
    intro r pos cs flag
    simp only [doubleQuotes, List.nil_append, List.length_nil, Nat.add_zero, hasQuote,
      Bool.or_false, nextLoop, if_true]
  | cons c s ih =>
    intro r pos cs flag
    by_cases hc : c = '"'
    · subst hc
      rw [doubleQuotes, if_pos rfl]
      simp only [List.cons_append, nextLoop, List.append_eq, if_true]
      rw [ih r (pos + 1 + 1) cs true]
      rw [hasQuote, if_pos rfl]
      simp only [List.length_cons, Bool.true_or, Bool.or_true]
      rw [show pos + ((doubleQuotes s).length + 1 + 1) + 1 =
        pos + 1 + 1 + (doubleQuotes s).length + 1 from by omega]
    · rw [doubleQuotes, if_neg hc]
      simp only [List.cons_append, nextLoop, List.append_eq]
      rw [if_neg hc, ih r (pos + 1) cs flag]
      rw [hasQuote, if_neg hc]
      simp only [List.length_cons]
      rw [show pos + ((doubleQuotes s).length + 1) + 1 =
        pos + 1 + (doubleQuotes s).length + 1 from by omega]

theorem run_trailing_exhaust {line : List Char} {d : Char} {t : List Char}
    (ht : ∀ c ∈ t, ¬c = d) :
    ∀ pos cs us flag, nextLoop line d t pos cs flag (.UnquotedDataAfterQuotedField us) =
      ⟨some (format_partly_unquoted line flag cs us line.length), [], pos + t.length, cs, true⟩ := by
  induction t with
  | nil => intro pos cs us flag; simp [nextLoop]
  | cons c t ih =>
    intro pos cs us flag
    simp only [nextLoop]
    rw [if_neg (ht c (.head _)), ih (fun x hx => ht x (.tail _ hx)) (pos + 1) cs us flag]
    simp only [List.length_cons]
    rw [show pos + (t.length + 1) = pos + 1 + t.length from by omega]

theorem scan_split_go (line : List Char) (d : Char)
    (hline : ∀ c ∈ line, ¬c = '"' ∧ ¬c = '\n' ∧ ¬c = '\r') :
    ∀ fuel rest pos, rest.length < fuel → line.drop pos = rest →
      (rest = [] → line.getLast? = some d) →
      scanGo fuel ⟨line, d, rest, pos, pos, false⟩ = (splitOnChar d rest).map Cow.borrowed := by
  intro fuel
  induction fuel with
  | zero => intro rest pos h _ _; omega
  | succ fuel ih =>
    intro rest pos hlt hdrop hlast
    cases rest with
    | nil =>
      have hl := hlast rfl
      simp only [scanGo, CsvRow.next, nextLoop, hl, Bool.false_eq_true, if_false, if_true]
      rw [scanGo_done rfl]
      simp [splitOnChar]
    | cons c rest' =>
      have hcin : c ∈ line := List.drop_subset pos line (hdrop ▸ List.mem_cons_self c rest')
      obtain ⟨hcq, hcn, hcr⟩ := hline c hcin
      have hrest' : line.drop (pos + 1) = rest' := by
        have h2 := List.drop_drop 1 pos line
        rw [hdrop] at h2
        simpa using h2.symm
      have hposlt : pos < line.length := by
        by_contra hcon
        have h3 : line.drop pos = [] := List.drop_eq_nil_of_le (by omega)
        rw [hdrop] at h3
        cases h3
      by_cases hcd : c = d
      · subst hcd
        simp only [scanGo, CsvRow.next, nextLoop, Bool.false_eq_true, if_false, if_true,
          if_pos rfl]
        have hlast' : rest' = [] → line.getLast? = some c := by
          intro h
          subst h
          have h4 : line = line.take pos ++ [c] := by
            conv_lhs => rw [← List.take_append_drop pos line, hdrop]
          rw [h4, List.getLast?_concat]
        have hih := ih rest' (pos + 1)
          (by simp only [List.length_cons] at hlt; omega) hrest' hlast'
        rw [hih, splitOnChar, if_pos rfl, List.map_cons]
      · by_cases hd : d ∈ rest'
        · obtain ⟨a, b, hab, hane⟩ := exists_first_mem hd
          have hmemline : ∀ x ∈ rest', x ∈ line := by
            intro x hx
            exact List.drop_subset (pos + 1) line (hrest' ▸ hx)
          have hsub : ∀ x ∈ a, ¬x = d ∧ ¬x = '\n' ∧ ¬x = '\r' := by
            intro x hx
            have hx1 : x ∈ line := hmemline x (hab ▸ List.mem_append_left _ hx)
            exact ⟨hane x hx, (hline x hx1).2.1, (hline x hx1).2.2⟩
          simp only [scanGo, CsvRow.next, nextLoop, Bool.false_eq_true, if_false]
          rw [if_neg hcd, if_neg hcq, hab, run_unquoted_delim hsub b (pos + 1) pos false]
          dsimp only
          have hline' : line = line.take pos ++ (c :: a) ++ d :: b := by
            conv_lhs => rw [← List.take_append_drop pos line, hdrop, hab]
            simp [List.append_assoc]
          have hpa : pos = (line.take pos).length := by
            rw [List.length_take]
            omega
          have hpb : pos + 1 + a.length = (line.take pos).length + (c :: a).length := by
            rw [List.length_take, List.length_cons]
            omega
          have hslice : lineSlice line pos (pos + 1 + a.length) = c :: a :=
            lineSlice_of_parts hline' hpa hpb
          have hline'' : line = (line.take pos ++ (c :: a) ++ [d]) ++ b := by
            conv_lhs => rw [hline']
            simp [List.append_assoc]
          have hdropb : line.drop (pos + 1 + a.length + 1) = b := by
            conv_lhs => rw [hline'']
            refine List.drop_left' ?_
            simp [List.length_take]
            omega
          have hlastb : b = [] → line.getLast? = some d := by
            intro h
            subst h
            rw [hline'', List.append_nil, List.getLast?_concat]
          have hblen : b.length < fuel := by
            rw [hab] at hlt
            simp [List.length_append] at hlt
            omega
          have hih := ih b (pos + 1 + a.length + 1) hblen hdropb hlastb
          rw [hslice, hih]
          have hshape : c :: (a ++ d :: b) = (c :: a) ++ d :: b := rfl
          rw [hshape, splitOnChar_first (by
            intro x hx
            cases hx with
            | head => exact hcd
            | tail _ hx => exact hane x hx) b, List.map_cons]
        · have hsub : ∀ x ∈ rest', ¬x = d ∧ ¬x = '\n' ∧ ¬x = '\r' := by
            intro x hx
            have hx1 : x ∈ line := List.drop_subset (pos + 1) line (hrest' ▸ hx)
            exact ⟨fun he => hd (he ▸ hx), (hline x hx1).2.1, (hline x hx1).2.2⟩
          simp only [scanGo, CsvRow.next, nextLoop, Bool.false_eq_true, if_false]
          rw [if_neg hcd, if_neg hcq, run_unquoted_exhaust hsub (pos + 1) pos false]
          dsimp only
          rw [scanGo_done rfl]
          rw [hdrop, splitOnChar_of_forall_ne (by
            intro x hx
            cases hx with
            | head => exact hcd
            | tail _ hx => exact (hsub x hx).1)]
          simp

theorem nextLoop_borrowed_subSeg {line : List Char} {d : Char} :
    ∀ rest pos cs flag state f,
      (nextLoop line d rest pos cs flag state).field = some f →
      f.isBorrowed = true → SubSeg f.val line := by
  intro rest
  induction rest with
  | nil =>
    intro pos cs flag state f hf hb
    cases state with
    | NewField =>
      simp only [nextLoop] at hf
      split at hf
      · injection hf with h
        subst h
        exact subSeg_nil line
      · cases hf
    | UnquotedField =>
      simp only [nextLoop] at hf
      injection hf with h
      subst h
      exact subSeg_drop line cs
    | QuotedField =>
      simp only [nextLoop, maybe_unescape] at hf
      split at hf
      · injection hf with h
        subst h
        cases hb
      · injection hf with h
        subst h
        exact subSeg_lineSlice line _ _
    | QuoteInQuotedField =>
      simp only [nextLoop, maybe_unescape] at hf
      split at hf
      · injection hf with h
        subst h
        cases hb
      · injection hf with h
        subst h
        exact subSeg_lineSlice line _ _
    | UnquotedDataAfterQuotedField us =>
      simp only [nextLoop, format_partly_unquoted] at hf
      injection hf with h
      subst h
      cases hb
  | cons c rest ih =>
    intro pos cs flag state f hf hb
    cases state with
    | NewField =>
      simp only [nextLoop] at hf
      split at hf
      · simp only [ScanOut.field] at hf
        injection hf with h
        subst h
        exact subSeg_nil line
      · split at hf
        · exact ih (pos + 1) cs flag .QuotedField f hf hb
        · exact ih (pos + 1) cs flag .UnquotedField f hf hb
    | UnquotedField =>
      simp only [nextLoop] at hf
      split at hf
      · simp only [ScanOut.field] at hf
        injection hf with h
        subst h
        exact subSeg_lineSlice line _ _
      · split at hf
        · simp only [ScanOut.field] at hf
          injection hf with h
          subst h
          exact subSeg_lineSlice line _ _
        · exact ih (pos + 1) cs flag .UnquotedField f hf hb
    | QuotedField =>
      simp only [nextLoop] at hf
      split at hf
      · exact ih (pos + 1) cs flag .QuoteInQuotedField f hf hb
      · exact ih (pos + 1) cs flag .QuotedField f hf hb
    | QuoteInQuotedField =>
      simp only [nextLoop] at hf
      split at hf
      · exact ih (pos + 1) cs true .QuotedField f hf hb
      · split at hf
        · simp only [ScanOut.field, maybe_unescape] at hf
          split at hf
          · injection hf with h
            subst h
            cases hb
          · injection hf with h
            subst h
            exact subSeg_lineSlice line _ _
        · split at hf
          · simp only [ScanOut.field, maybe_unescape] at hf
            split at hf
            · injection hf with h
              subst h
              cases hb
            · injection hf with h
              subst h
              exact subSeg_lineSlice line _ _
          · exact ih (pos + 1) cs flag (.UnquotedDataAfterQuotedField pos) f hf hb
    | UnquotedDataAfterQuotedField us =>
      simp only [nextLoop] at hf
      split at hf
      · simp only [ScanOut.field, format_partly_unquoted] at hf
        injection hf with h
        subst h
        cases hb
      · exact ih (pos + 1) cs flag (.UnquotedDataAfterQuotedField us) f hf hb

theorem scanGo_borrowed_subSeg :
    ∀ fuel (r : CsvRow) (f : Cow), f ∈ scanGo fuel r → f.isBorrowed = true →
      SubSeg f.val r.line := by
  intro fuel
  induction fuel with
  | zero =>
    intro r f hf
    simp [scanGo] at hf
  | succ fuel ih =>
    intro r f hf hb
    rcases hnext : r.next with ⟨o, r'⟩
    cases o with
    | none => simp [scanGo, hnext] at hf
    | some f0 =>
      simp only [scanGo, hnext, List.mem_cons] at hf
      rcases hf with rfl | hf
      · by_cases hdone : r.done = true
        · simp only [CsvRow.next, if_pos hdone] at hnext
          injection hnext with h1 _
          cases h1
        · simp only [CsvRow.next, if_neg hdone] at hnext
          injection hnext with h1 _
          exact nextLoop_borrowed_subSeg r.rest r.pos r.column_start false .NewField f h1 hb
      · have hline : r'.line = r.line := by
          by_cases hdone : r.done = true
          · simp only [CsvRow.next, if_pos hdone] at hnext
            injection hnext with _ h2
            rw [← h2]
          · simp only [CsvRow.next, if_neg hdone] at hnext
            injection hnext with _ h2
            rw [← h2]
        rw [← hline]
        exact ih r' f hf hb

theorem nextLoopChecked_eq (line : List Char) (d : Char) :
    ∀ rest pos cs flag state, pos + rest.length = line.length → StInv pos cs state →
      nextLoopChecked line d rest pos cs flag state =
        some (nextLoop line d rest pos cs flag state) := by
  intro rest
  induction rest with
  | nil =>
    intro pos cs flag state hsync hinv
    simp only [List.length_nil, Nat.add_zero] at hsync
    cases state with
    | NewField => rfl
    | UnquotedField =>
      have h1 : cs ≤ line.length := by
        simp only [StInv] at hinv
        omega
      simp [nextLoopChecked, nextLoop, dropChecked, h1]
    | QuotedField =>
      have h1 : cs + 1 ≤ line.length ∧ line.length ≤ line.length := by
        simp only [StInv] at hinv
        omega
      simp [nextLoopChecked, nextLoop, maybe_unescapeChecked, lineSliceChecked,
        maybe_unescape, h1]
    | QuoteInQuotedField =>
      simp only [StInv] at hinv
      have h1 : 1 ≤ line.length := by omega
      have h2 : cs + 1 ≤ line.length - 1 ∧ line.length - 1 ≤ line.length := by omega
      simp [nextLoopChecked, nextLoop, subChecked, maybe_unescapeChecked,
        lineSliceChecked, maybe_unescape, h1, h2]
    | UnquotedDataAfterQuotedField us =>
      simp only [StInv] at hinv
      have h1 : 1 ≤ us := by omega
      have h2 : cs + 1 ≤ us - 1 ∧ us - 1 ≤ line.length := by omega
      have h3 : us ≤ line.length ∧ line.length ≤ line.length := by omega
      simp [nextLoopChecked, nextLoop, format_partly_unquotedChecked, subChecked,
        maybe_unescapeChecked, lineSliceChecked, format_partly_unquoted,
        maybe_unescape, h1, h2, h3]
  | cons c rest ih =>
    intro pos cs flag state hsync hinv
    have hsync' : pos + 1 + rest.length = line.length := by
      simp only [List.length_cons] at hsync
      omega
    have hposlt : pos < line.length := by
      simp only [List.length_cons] at hsync
      omega
    cases state with
    | NewField =>
      simp only [StInv] at hinv
      simp only [nextLoopChecked, nextLoop]
      split
      · rfl
      · split
        · exact ih (pos + 1) cs flag .QuotedField hsync' (by simp only [StInv]; omega)
        · exact ih (pos + 1) cs flag .UnquotedField hsync' (by simp only [StInv]; omega)
    | UnquotedField =>
      simp only [StInv] at hinv
      have h1 : cs ≤ pos ∧ pos ≤ line.length := by omega
      simp only [nextLoopChecked, nextLoop]
      split
      · simp [lineSliceChecked, h1]
      · split
        · simp [lineSliceChecked, h1]
        · exact ih (pos + 1) cs flag .UnquotedField hsync' (by simp only [StInv]; omega)
    | QuotedField =>
      simp only [StInv] at hinv
      simp only [nextLoopChecked, nextLoop]
      split
      · exact ih (pos + 1) cs flag .QuoteInQuotedField hsync' (by simp only [StInv]; omega)
      · exact ih (pos + 1) cs flag .QuotedField hsync' (by simp only [StInv]; omega)
    | QuoteInQuotedField =>
      simp only [StInv] at hinv
      have h1 : 1 ≤ pos := by omega
      have h2 : cs + 1 ≤ pos - 1 ∧ pos - 1 ≤ line.length := by omega
      simp only [nextLoopChecked, nextLoop]
      split
      · exact ih (pos + 1) cs true .QuotedField hsync' (by simp only [StInv]; omega)
      · split
        · simp [subChecked, maybe_unescapeChecked, lineSliceChecked, maybe_unescape, h1, h2]
        · split
          · simp [subChecked, maybe_unescapeChecked, lineSliceChecked, maybe_unescape,
              h1, h2]
          · exact ih (pos + 1) cs flag (.UnquotedDataAfterQuotedField pos) hsync'
              (by simp only [StInv]; omega)
    | UnquotedDataAfterQuotedField us =>
      simp only [StInv] at hinv
      have h1 : 1 ≤ us := by omega
      have h2 : cs + 1 ≤ us - 1 ∧ us - 1 ≤ line.length := by omega
      have h3 : us ≤ pos ∧ pos ≤ line.length := by omega
      simp only [nextLoopChecked, nextLoop]
      split
      · simp [format_partly_unquotedChecked, subChecked, maybe_unescapeChecked,
          lineSliceChecked, format_partly_unquoted, maybe_unescape, h1, h2, h3]
      · exact ih (pos + 1) cs flag (.UnquotedDataAfterQuotedField us) hsync'
          (by simp only [StInv]; omega)

theorem nextLoop_preserve {line : List Char} {d : Char} :
    ∀ rest pos cs flag state o, nextLoop line d rest pos cs flag state = o →
      pos + rest.length = line.length → o.done = false →
      o.pos + o.rest.length = line.length ∧ o.cs = o.pos := by
  intro rest
  induction rest with
  | nil =>
    intro pos cs flag state o ho hsync hdone
    cases state <;> (rw [← ho] at hdone; cases hdone)
  | cons c rest ih =>
    intro pos cs flag state o ho hsync hdone
    have hsync' : pos + 1 + rest.length = line.length := by
      simp only [List.length_cons] at hsync
      omega
    cases state with
    | NewField =>
      simp only [nextLoop] at ho
      split at ho
      · rw [← ho]
        refine ⟨show pos + 1 + rest.length = line.length from ?_, rfl⟩
        simp only [List.length_cons] at hsync
        omega
      · split at ho
        · exact ih (pos + 1) cs flag .QuotedField o ho hsync' hdone
        · exact ih (pos + 1) cs flag .UnquotedField o ho hsync' hdone
    | UnquotedField =>
      simp only [nextLoop] at ho
      split at ho
      · rw [← ho]
        refine ⟨show pos + 1 + rest.length = line.length from ?_, rfl⟩
        simp only [List.length_cons] at hsync
        omega
      · split at ho
        · rw [← ho] at hdone
          cases hdone
        · exact ih (pos + 1) cs flag .UnquotedField o ho hsync' hdone
    | QuotedField =>
      simp only [nextLoop] at ho
      split at ho
      · exact ih (pos + 1) cs flag .QuoteInQuotedField o ho hsync' hdone
      · exact ih (pos + 1) cs flag .QuotedField o ho hsync' hdone
    | QuoteInQuotedField =>
      simp only [nextLoop] at ho
      split at ho
      · exact ih (pos + 1) cs true .QuotedField o ho hsync' hdone
      · split at ho
        · rw [← ho]
          refine ⟨show pos + 1 + rest.length = line.length from ?_, rfl⟩
          simp only [List.length_cons] at hsync
          omega
        · split at ho
          · rw [← ho] at hdone
            cases hdone
          · exact ih (pos + 1) cs flag (.UnquotedDataAfterQuotedField pos) o ho hsync' hdone
    | UnquotedDataAfterQuotedField us =>
      simp only [nextLoop] at ho
      split at ho
      · rw [← ho]
        refine ⟨show pos + 1 + rest.length = line.length from ?_, rfl⟩
        simp only [List.length_cons] at hsync
        omega
      · exact ih (pos + 1) cs flag (.UnquotedDataAfterQuotedField us) o ho hsync' hdone

theorem scanGoChecked_eq :
    ∀ fuel (r : CsvRow),
      (r.done = false → r.pos + r.rest.length = r.line.length ∧ r.column_start = r.pos) →
      scanGoChecked fuel r = some (scanGo fuel r) := by
  intro fuel
  induction fuel with
  | zero => intro r _; rfl
  | succ fuel ih =>
    intro r hinv
    by_cases hdone : r.done = true
    · simp [scanGoChecked, scanGo, CsvRow.nextChecked, CsvRow.next, hdone]
    · have hdf : r.done = false := by
        cases h : r.done
        · rfl
        · exact absurd h hdone
      obtain ⟨hsync, hcs⟩ := hinv hdf
      have hC := nextLoopChecked_eq r.line r.delimiter r.rest r.pos r.column_start false
        .NewField hsync
        (by simp only [StInv]; omega)
      rcases ho : nextLoop r.line r.delimiter r.rest r.pos r.column_start false .NewField
        with ⟨ofield, orest, opos, ocs, odone⟩
      rw [ho] at hC
      cases ofield with
      | none =>
        simp [scanGoChecked, scanGo, CsvRow.nextChecked, CsvRow.next, hdone, hC, ho]
      | some f =>
        have hih := ih ⟨r.line, r.delimiter, orest, opos, ocs, odone⟩ (by
          intro hd
          have := nextLoop_preserve r.rest r.pos r.column_start false .NewField _ ho hsync
            (by simpa using hd)
          simpa using this)
        simp [scanGoChecked, scanGo, CsvRow.nextChecked, CsvRow.next, hdone, hC, ho, hih]

example : scanAllChecked ['"','a','"','"','b','"','x',',','y'] ',' =
    some (scanAll ['"','a','"','"','b','"','x',',','y'] ',') := by decide

theorem dropLast_drop_comm (l : List Char) (n : Nat) :
    (l.drop n).dropLast = l.dropLast.drop n := by
  rw [List.dropLast_eq_take, List.dropLast_eq_take, List.drop_take, List.length_drop]
  congr 1
  omega

/-- Claim C1 counterexample: on the empty line the scanner does not produce
the single empty field the claim requires; it produces no fields at all. -/
theorem claim_C1_counterexample : recordOf [] ',' ≠ [[]] := by decide

/-- Claim C1 (amended): scanning the empty line yields zero fields, so
`decode_str` passes a zero-field record (not a one-column record with one
empty field) to the external deserializer. -/
theorem claim_C1_amended {ε α : Type} (des : List (List Char) → Except ε α) (d : Char) :
    recordOf [] d = [] ∧
    (∀ v : α, decode_str des [] d = .ok v ↔ des [] = .ok v) := by
  have h : recordOf [] d = [] := rfl
  refine ⟨h, fun v => ?_⟩
  unfold decode_str
  rw [h]
  cases des [] <;> simp

/-- Claim C3 counterexample: the empty line contains no quote and no CR/LF,
yet the scanner's output (no fields) differs from the naive split (one empty
field). -/
theorem claim_C3_counterexample :
    (∀ c ∈ ([] : List Char), ¬c = '"' ∧ ¬c = '\n' ∧ ¬c = '\r') ∧
    recordOf [] ',' ≠ splitOnChar ',' [] := by decide

/-- Claim C3 (amended): for every nonempty line containing no quote character
and no CR/LF, the scanned field sequence equals the naive split of the line
on the delimiter, including a trailing empty field when the line ends with
the delimiter. -/
theorem claim_C3_amended (line : List Char) (d : Char)
    (h1 : ∀ c ∈ line, ¬c = '"' ∧ ¬c = '\n' ∧ ¬c = '\r') (h2 : line ≠ []) :
    recordOf line d = splitOnChar d line := by
  have h := scan_split_go line d h1 (line.length + 1) line 0 (by omega) (by simp)
    (fun h => absurd h h2)
  unfold recordOf scanAll CsvRow.new
  rw [h, List.map_map]
  rw [show Cow.val ∘ Cow.borrowed = id from rfl, List.map_id]

theorem claim_C3_witness :
    recordOf ['a', ',', 'b', ','] ',' = splitOnChar ',' ['a', ',', 'b', ','] :=
  claim_C3_amended ['a', ',', 'b', ','] ',' (by decide) (by decide)

/-- Claim C5: when the cursor is exhausted in state `QuotedField` the emitted
field is the content from just after the opening quote (at `cs`) to
end-of-line, un-escaped exactly when a doubled quote was seen; when exhausted
in state `QuoteInQuotedField` it is the content between the opening quote and
the final quote, excluding that final quote, with escaping resolved. -/
theorem claim_C5_eol_pending_quote (line : List Char) (d : Char) (pos cs : Nat)
    (flag : Bool) :
    (nextLoop line d [] pos cs flag .QuotedField).field =
      some (if flag then Cow.owned (unescape (line.drop (cs + 1)))
        else Cow.borrowed (line.drop (cs + 1))) ∧
    (nextLoop line d [] pos cs flag .QuoteInQuotedField).field =
      some (if flag then Cow.owned (unescape ((line.drop (cs + 1)).dropLast))
        else Cow.borrowed ((line.drop (cs + 1)).dropLast)) := by
  constructor
  · simp only [nextLoop, maybe_unescape, lineSlice, List.take_length]
  · simp only [nextLoop, maybe_unescape, lineSlice]
    rw [dropLast_drop_comm, List.dropLast_eq_take]

theorem nextLoopTagged_erase (line : List Char) (d : Char) :
    ∀ rest pos cs flag state,
      (nextLoopTagged line d rest pos cs flag state).eraseTag =
        nextLoop line d rest pos cs flag state := by
  intro rest
  induction rest with
  | nil =>
    intro pos cs flag state
    cases state with
    | NewField =>
      by_cases hP : line.getLast? = some d <;>
        simp [nextLoopTagged, nextLoop, ScanOutTagged.eraseTag, hP]
    | UnquotedField => simp [nextLoopTagged, nextLoop, ScanOutTagged.eraseTag]
    | QuotedField => simp [nextLoopTagged, nextLoop, ScanOutTagged.eraseTag]
    | QuoteInQuotedField => simp [nextLoopTagged, nextLoop, ScanOutTagged.eraseTag]
    | UnquotedDataAfterQuotedField us =>
      simp [nextLoopTagged, nextLoop, ScanOutTagged.eraseTag]
  | cons c rest ih =>
    intro pos cs flag state
    cases state with
    | NewField =>
      by_cases h1 : c = d
      · simp [nextLoopTagged, nextLoop, ScanOutTagged.eraseTag, h1]
      · by_cases h2 : c = '"'
        · subst h2
          simp only [nextLoopTagged, nextLoop, h1, if_false, if_true]
          exact ih (pos + 1) cs flag .QuotedField
        · simp only [nextLoopTagged, nextLoop, h1, h2, if_false]
          exact ih (pos + 1) cs flag .UnquotedField
    | UnquotedField =>
      by_cases h1 : c = d
      · simp [nextLoopTagged, nextLoop, ScanOutTagged.eraseTag, h1]
      · by_cases h2 : c = '\n' ∨ c = '\r'
        · simp [nextLoopTagged, nextLoop, ScanOutTagged.eraseTag, h1, h2]
        · simp only [nextLoopTagged, nextLoop, h1, h2, if_false]
          exact ih (pos + 1) cs flag .UnquotedField
    | QuotedField =>
      by_cases h1 : c = '"'
      · simp only [nextLoopTagged, nextLoop, h1, if_true]
        exact ih (pos + 1) cs flag .QuoteInQuotedField
      · simp only [nextLoopTagged, nextLoop, h1, if_false]
        exact ih (pos + 1) cs flag .QuotedField
    | QuoteInQuotedField =>
      by_cases h1 : c = '"'
      · simp only [nextLoopTagged, nextLoop, h1, if_true]
        exact ih (pos + 1) cs true .QuotedField
      · by_cases h2 : c = d
        · subst h2
          simp [nextLoopTagged, nextLoop, ScanOutTagged.eraseTag, h1]
        · by_cases h3 : c = '\n' ∨ c = '\r'
          · simp [nextLoopTagged, nextLoop, ScanOutTagged.eraseTag, h1, h2, h3]
          · simp only [nextLoopTagged, nextLoop, h1, h2, h3, if_false]
            exact ih (pos + 1) cs flag (.UnquotedDataAfterQuotedField pos)
    | UnquotedDataAfterQuotedField us =>
      by_cases h1 : c = d
      · simp [nextLoopTagged, nextLoop, ScanOutTagged.eraseTag, h1]
      · simp only [nextLoopTagged, nextLoop, h1, if_false]
        exact ih (pos + 1) cs flag (.UnquotedDataAfterQuotedField us)

theorem scanGoTagged_erase :
    ∀ fuel (r : CsvRow), (scanGoTagged fuel r).map Prod.fst = scanGo fuel r := by
  intro fuel
  induction fuel with
  | zero => intro r; rfl
  | succ fuel ih =>
    intro r
    by_cases hdone : r.done = true
    · simp [scanGoTagged, scanGo, CsvRow.nextTagged, CsvRow.next, hdone]
    · have he := nextLoopTagged_erase r.line r.delimiter r.rest r.pos r.column_start
        false .NewField
      rcases ho : nextLoopTagged r.line r.delimiter r.rest r.pos r.column_start
        false .NewField with ⟨ofield, orest, opos, ocs, odone⟩
      rw [ho] at he
      cases ofield with
      | none =>
        simp [scanGoTagged, scanGo, CsvRow.nextTagged, CsvRow.next, hdone, ho, ← he,
          ScanOutTagged.eraseTag]
      | some p =>
        simp [scanGoTagged, scanGo, CsvRow.nextTagged, CsvRow.next, hdone, ho, ← he,
          ScanOutTagged.eraseTag, ih]

theorem nextLoopTagged_tag (line : List Char) (d : Char) :
    ∀ rest pos cs flag state p,
      (nextLoopTagged line d rest pos cs flag state).field = some p →
      p.1.isBorrowed = !p.2 := by
  intro rest
  induction rest with
  | nil =>
    intro pos cs flag state p hf
    cases state with
    | NewField =>
      simp only [nextLoopTagged] at hf
      split at hf
      · injection hf with h
        subst h
        rfl
      · cases hf
    | UnquotedField =>
      simp only [nextLoopTagged] at hf
      injection hf with h
      subst h
      rfl
    | QuotedField =>
      simp only [nextLoopTagged] at hf
      injection hf with h
      subst h
      cases flag <;> rfl
    | QuoteInQuotedField =>
      simp only [nextLoopTagged] at hf
      injection hf with h
      subst h
      cases flag <;> rfl
    | UnquotedDataAfterQuotedField us =>
      simp only [nextLoopTagged] at hf
      injection hf with h
      subst h
      rfl
  | cons c rest ih =>
    intro pos cs flag state p hf
    cases state with
    | NewField =>
      simp only [nextLoopTagged] at hf
      split at hf
      · simp only [ScanOutTagged.field] at hf
        injection hf with h
        subst h
        rfl
      · split at hf
        · exact ih (pos + 1) cs flag .QuotedField p hf
        · exact ih (pos + 1) cs flag .UnquotedField p hf
    | UnquotedField =>
      simp only [nextLoopTagged] at hf
      split at hf
      · simp only [ScanOutTagged.field] at hf
        injection hf with h
        subst h
        rfl
      · split at hf
        · simp only [ScanOutTagged.field] at hf
          injection hf with h
          subst h
          rfl
        · exact ih (pos + 1) cs flag .UnquotedField p hf
    | QuotedField =>
      simp only [nextLoopTagged] at hf
      split at hf
      · exact ih (pos + 1) cs flag .QuoteInQuotedField p hf
      · exact ih (pos + 1) cs flag .QuotedField p hf
    | QuoteInQuotedField =>
      simp only [nextLoopTagged] at hf
      split at hf
      · exact ih (pos + 1) cs true .QuotedField p hf
      · split at hf
        · simp only [ScanOutTagged.field] at hf
          injection hf with h
          subst h
          cases flag <;> rfl
        · split at hf
          · simp only [ScanOutTagged.field] at hf
            injection hf with h
            subst h
            cases flag <;> rfl
          · exact ih (pos + 1) cs flag (.UnquotedDataAfterQuotedField pos) p hf
    | UnquotedDataAfterQuotedField us =>
      simp only [nextLoopTagged] at hf
      split at hf
      · simp only [ScanOutTagged.field] at hf
        injection hf with h
        subst h
        rfl
      · exact ih (pos + 1) cs flag (.UnquotedDataAfterQuotedField us) p hf

theorem scanGoTagged_tag :
    ∀ fuel (r : CsvRow) (p : Cow × Bool), p ∈ scanGoTagged fuel r →
      p.1.isBorrowed = !p.2 := by
  intro fuel
  induction fuel with
  | zero =>
    intro r p hp
    simp [scanGoTagged] at hp
  | succ fuel ih =>
    intro r p hp
    rcases hnext : r.nextTagged with ⟨o, r'⟩
    cases o with
    | none => simp [scanGoTagged, hnext] at hp
    | some p0 =>
      simp only [scanGoTagged, hnext, List.mem_cons] at hp
      rcases hp with rfl | hp
      · by_cases hdone : r.done = true
        · simp only [CsvRow.nextTagged, if_pos hdone] at hnext
          injection hnext with h1 _
          cases h1
        · simp only [CsvRow.nextTagged, if_neg hdone] at hnext
          injection hnext with h1 _
          exact nextLoopTagged_tag r.line r.delimiter r.rest r.pos r.column_start
            false .NewField p h1
      · exact ih r' p hp

/-- Claim C6: allocation policy.  `scanAllTagged` pairs every produced field
with `true` exactly when its emission performed doubled-quote un-escaping
(the `column_needs_unescaping` flag at a `maybe_unescape` site) or
quoted/unquoted concatenation (a `format_partially_unquoted` site) — the two
causes the claim names.  (a) the tagged scan erases to the real scan, so the
tags speak about the scanner's actual fields; (b) a produced field is a
borrowed view exactly when its tag is false, i.e. borrowed iff no
un-escaping and no concatenation was required, owned iff one was; (c) every
borrowed field is a contiguous segment of the original line; (d) on a line
with no quote and no CR/LF every produced field is borrowed — plain
splitting never copies. -/
theorem claim_C6_allocation (line : List Char) (d : Char) :
    ((scanAllTagged line d).map Prod.fst = scanAll line d) ∧
    (∀ p ∈ scanAllTagged line d, p.1.isBorrowed = !p.2) ∧
    (∀ f ∈ scanAll line d, f.isBorrowed = true → SubSeg f.val line) ∧
    ((∀ c ∈ line, ¬c = '"' ∧ ¬c = '\n' ∧ ¬c = '\r') →
      ∀ f ∈ scanAll line d, f.isBorrowed = true) := by
  refine ⟨?_, fun p hp => ?_, fun f hf hb => ?_, fun hplain f hf => ?_⟩
  · exact scanGoTagged_erase (line.length + 1) (CsvRow.new line d)
  · exact scanGoTagged_tag (line.length + 1) (CsvRow.new line d) p hp
  · exact scanGo_borrowed_subSeg (line.length + 1) (CsvRow.new line d) f hf hb
  · by_cases hnil : line = []
    · subst hnil
      simp [scanAll, scanGo, CsvRow.new, CsvRow.next, nextLoop] at hf
    · have h := scan_split_go line d hplain (line.length + 1) line 0 (by omega)
        (by simp) (fun hh => absurd hh hnil)
      unfold scanAll CsvRow.new at hf
      rw [h] at hf
      obtain ⟨x, _, rfl⟩ := List.mem_map.mp hf
      rfl

theorem claim_C6_witness :
    ((Cow.owned ['a', '"', 'b']).isBorrowed = !true) ∧
    ((Cow.borrowed ['f']).isBorrowed = true) ∧
    SubSeg ['f'] ['f', ',', 'x'] :=
  ⟨(claim_C6_allocation ['"', 'a', '"', '"', 'b', '"'] ',').2.1
      (Cow.owned ['a', '"', 'b'], true) (by decide),
    (claim_C6_allocation ['f', ',', 'x'] ',').2.2.2 (by decide) (Cow.borrowed ['f'])
      (by decide),
    (claim_C6_allocation ['f', ',', 'x'] ',').2.2.1 (Cow.borrowed ['f']) (by decide)
      (by decide)⟩

/-- Claim C7: the scanner is total: with every slicing operation and `usize`
subtraction guarded, scanning never hits an out-of-range or underflowing
operation on any line and any delimiter, and produces exactly the fields of
the unguarded scanner (malformed quoting is resolved, not rejected). -/
theorem claim_C7_scanner_total (line : List Char) (d : Char) :
    scanAllChecked line d = some (scanAll line d) := by
  unfold scanAllChecked scanAll
  exact scanGoChecked_eq (line.length + 1) (CsvRow.new line d)
    (fun _ => by simp [CsvRow.new])

/-- Claim C9: `decode_str` returns exactly the external deserializer's value
on the scanned record, or an error wrapping exactly the deserializer's error
(the single `Csv` pass-through kind); it introduces no error of its own and
never returns anything else. -/
theorem claim_C9_decode_passthrough {ε α : Type} (des : List (List Char) → Except ε α)
    (line : List Char) (d : Char) :
    (∀ v : α, decode_str des line d = .ok v ↔ des (recordOf line d) = .ok v) ∧
    (∀ e : Error ε, decode_str des line d = .error e ↔
      ∃ ce, e = .Csv ce ∧ des (recordOf line d) = .error ce) := by
  unfold decode_str
  rcases h : des (recordOf line d) with e | v
  · constructor
    · intro v
      simp [h]
    · intro e'
      simp only [h]
      constructor
      · intro he
        injection he with he
        exact ⟨e, he.symm, rfl⟩
      · rintro ⟨ce, rfl, hce⟩
        injection hce with hce
        rw [hce]
  · constructor
    · intro v'
      simp [h]
    · intro e'
      simp [h]

/-- Claim C4 counterexample: with the delimiter configured as the quote
character itself, scanning the RFC-4180 encoding of "a" does not return
["a"]. -/
theorem claim_C4_counterexample : recordOf (encodeRFC ['a']) '"' ≠ [['a']] := by decide

/-- Claim C4 (amended): for every field string `s` and every delimiter other
than the quote character, scanning the RFC-4180 encoding of `s` (wrap in
quotes, double every embedded quote) yields exactly the one-field sequence
`[s]`. -/
theorem claim_C4_amended (s : List Char) (d : Char) (hd : ¬d = '"') :
    recordOf (encodeRFC s) d = [s] := by
  have hq : ¬ '"' = d := fun h => hd h.symm
  have hline : '"' :: doubleQuotes s ++ ['"'] = ['"'] ++ doubleQuotes s ++ ['"'] := rfl
  have hslice : lineSlice ('"' :: doubleQuotes s ++ ['"']) 1 ((doubleQuotes s).length + 1)
      = doubleQuotes s := by
    refine lineSlice_of_parts hline rfl ?_
    show (doubleQuotes s).length + 1 = 1 + (doubleQuotes s).length
    omega
  unfold recordOf scanAll encodeRFC CsvRow.new
  simp only [scanGo, CsvRow.next, Bool.false_eq_true, if_false, if_true, nextLoop,
    List.append_eq, Nat.zero_add]
  rw [if_neg hq]
  rw [run_quoted_double s [] 1 0 false]
  simp only [nextLoop, if_true]
  have hlen : ('"' :: doubleQuotes s ++ ['"']).length - 1 = (doubleQuotes s).length + 1 := by
    simp
  rw [hlen]
  simp only [maybe_unescape, hslice, Bool.false_or]
  cases hhq : hasQuote s with
  | true => simp [Cow.val, unescape_doubleQuotes]
  | false => simp [Cow.val, doubleQuotes_of_hasQuote_eq_false hhq]

theorem claim_C4_witness : recordOf (encodeRFC ['a', ',', '"', '\n']) ',' =
    [['a', ',', '"', '\n']] :=
  claim_C4_amended ['a', ',', '"', '\n'] ',' (by decide)

/-- Claim C8: a delimiter occurring between an opening quote and its closing
quote is emitted as part of the field's content and never acts as a field
boundary: for any quoted content `s` (RFC-encoded), delimiter `d ≠ '"'`, and
nonempty unquoted tail `t`, the line `"s";t` (with `;` the delimiter) scans
to exactly the two fields `[s, t]`. -/
theorem claim_C8_quoted_delimiter (s t : List Char) (d : Char) (hd : ¬d = '"')
    (ht : t ≠ []) (htc : ∀ c ∈ t, ¬c = d ∧ ¬c = '"' ∧ ¬c = '\n' ∧ ¬c = '\r') :
    recordOf ('"' :: doubleQuotes s ++ '"' :: d :: t) d = [s, t] := by
  have hq : ¬ '"' = d := fun h => hd h.symm
  have hqd : ¬d = '"' := hd
  have hline : '"' :: doubleQuotes s ++ '"' :: d :: t =
      ['"'] ++ doubleQuotes s ++ '"' :: d :: t := rfl
  have hslice : lineSlice ('"' :: doubleQuotes s ++ '"' :: d :: t) 1
      ((doubleQuotes s).length + 1) = doubleQuotes s := by
    refine lineSlice_of_parts hline rfl ?_
    show (doubleQuotes s).length + 1 = 1 + (doubleQuotes s).length
    omega
  unfold recordOf scanAll CsvRow.new
  simp only [scanGo, CsvRow.next, Bool.false_eq_true, if_false, if_true, nextLoop,
    List.append_eq, Nat.zero_add]
  rw [if_neg hq]
  rw [run_quoted_double s (d :: t) 1 0 false]
  simp only [nextLoop, Bool.false_or]
  rw [if_neg hqd]
  simp only [if_true]
  cases t with
  | nil => exact absurd rfl ht
  | cons t0 t' =>
    obtain ⟨h0d, h0q, h0n, h0r⟩ := htc t0 (.head _)
    have ht' : ∀ x ∈ t', ¬x = d ∧ ¬x = '\n' ∧ ¬x = '\r' := by
      intro x hx
      obtain ⟨a1, _, a3, a4⟩ := htc x (.tail _ hx)
      exact ⟨a1, a3, a4⟩
    simp only [CsvRow.next, Bool.false_eq_true, if_false, nextLoop]
    rw [if_neg h0d, if_neg h0q, run_unquoted_exhaust ht'
      (1 + (doubleQuotes s).length + 1 + 1 + 1) (1 + (doubleQuotes s).length + 1 + 1) false]
    dsimp only
    rw [scanGo_done rfl]
    have hdrop : ('"' :: doubleQuotes s ++ '"' :: d :: t0 :: t').drop
        (1 + (doubleQuotes s).length + 1 + 1) = t0 :: t' := by
      have hsh : '"' :: doubleQuotes s ++ '"' :: d :: t0 :: t' =
          ('"' :: doubleQuotes s ++ ['"', d]) ++ t0 :: t' := by
        simp
      rw [hsh]
      refine List.drop_left' ?_
      simp
      omega
    have hsub : 1 + (doubleQuotes s).length + 1 - 1 = (doubleQuotes s).length + 1 := by
      omega
    rw [hsub, hdrop]
    simp only [maybe_unescape, hslice, List.map_cons, List.map_nil]
    cases hhq : hasQuote s with
    | true => simp [Cow.val, unescape_doubleQuotes]
    | false => simp [Cow.val, doubleQuotes_of_hasQuote_eq_false hhq]

theorem claim_C8_witness :
    recordOf ['"', 'f', ';', 'o', 'o', '"', ';', 'b', 'a', 'r'] ';' =
      [['f', ';', 'o', 'o'], ['b', 'a', 'r']] :=
  claim_C8_quoted_delimiter ['f', ';', 'o', 'o'] ['b', 'a', 'r'] ';' (by decide)
    (by decide) (by decide)

/-- Claim C10: when unquoted data trails a closed quoted field, doubled-quote
collapsing applies only to the portion between the opening and closing
quotes; the trailing slice is concatenated verbatim (doubled quotes in it
stay doubled), and the field is an owned copy. -/
theorem claim_C10_trailing_verbatim (s t : List Char) (c d : Char) (hd : ¬d = '"')
    (hcq : ¬c = '"') (hcd : ¬c = d) (hcn : ¬c = '\n') (hcr : ¬c = '\r')
    (ht : ∀ x ∈ t, ¬x = d) :
    scanAll ('"' :: doubleQuotes s ++ '"' :: c :: t) d = [Cow.owned (s ++ c :: t)] := by
  have hq : ¬ '"' = d := fun h => hd h.symm
  have hline : '"' :: doubleQuotes s ++ '"' :: c :: t =
      ['"'] ++ doubleQuotes s ++ '"' :: c :: t := rfl
  have hslice : lineSlice ('"' :: doubleQuotes s ++ '"' :: c :: t) 1
      ((doubleQuotes s).length + 1) = doubleQuotes s := by
    refine lineSlice_of_parts hline rfl ?_
    show (doubleQuotes s).length + 1 = 1 + (doubleQuotes s).length
    omega
  have hline2 : '"' :: doubleQuotes s ++ '"' :: c :: t =
      ('"' :: doubleQuotes s ++ ['"']) ++ (c :: t) ++ [] := by
    simp
  have hslice2 : lineSlice ('"' :: doubleQuotes s ++ '"' :: c :: t)
      (1 + (doubleQuotes s).length + 1) ('"' :: doubleQuotes s ++ '"' :: c :: t).length
      = c :: t := by
    refine lineSlice_of_parts hline2 ?_ ?_
    · simp
      omega
    · simp
      omega
  unfold scanAll CsvRow.new
  simp only [scanGo, CsvRow.next, Bool.false_eq_true, if_false, if_true, nextLoop,
    List.append_eq, Nat.zero_add]
  rw [if_neg hq]
  rw [run_quoted_double s (c :: t) 1 0 false]
  simp only [nextLoop, Bool.false_or]
  rw [if_neg hcq, if_neg hcd, if_neg (not_or.mpr ⟨hcn, hcr⟩)]
  rw [run_trailing_exhaust ht (1 + (doubleQuotes s).length + 1 + 1) 0
    (1 + (doubleQuotes s).length + 1) (hasQuote s)]
  dsimp only
  rw [if_pos rfl]
  dsimp only
  simp only [format_partly_unquoted, maybe_unescape, Nat.zero_add]
  have hsub : 1 + (doubleQuotes s).length + 1 - 1 = (doubleQuotes s).length + 1 := by
    omega
  rw [hsub, hslice, hslice2]
  cases hhq : hasQuote s with
  | true => simp [Cow.val, unescape_doubleQuotes]
  | false => simp [Cow.val, doubleQuotes_of_hasQuote_eq_false hhq]

theorem claim_C10_witness :
    scanAll ['"', 'a', '"', 'x', '"', '"', 'y'] ',' =
      [Cow.owned ['a', 'x', '"', '"', 'y']] :=
  claim_C10_trailing_verbatim ['a'] ['"', '"', 'y'] 'x' ',' (by decide) (by decide)
    (by decide) (by decide) (by decide) (by decide)

/-- Claim C2 counterexample: a LF at the very start of a field (state
`NewField`) is not treated as a record terminator: it is swallowed into an
unquoted field, which then also contains the text after it. -/
theorem claim_C2_counterexample :
    ∃ f ∈ recordOf ['\n', 'a'] ',', '\n' ∈ f := by decide

/-- Claim C2 (amended): CR/LF terminates the record when encountered in
state `UnquotedField` (after at least one field character) or in state
`QuoteInQuotedField` (right after a closing quote): the produced field
excludes the CR/LF and nothing after it is scanned.  In states `NewField`
and `UnquotedDataAfterQuotedField` a CR/LF is ordinary field content. -/
theorem claim_C2_amended :
    (∀ (d nl : Char) (pre t : List Char), nl = '\n' ∨ nl = '\r' → ¬nl = d →
      pre ≠ [] → (∀ c ∈ pre, ¬c = d ∧ ¬c = '"' ∧ ¬c = '\n' ∧ ¬c = '\r') →
      recordOf (pre ++ nl :: t) d = [pre]) ∧
    (∀ (d nl : Char) (s t : List Char), nl = '\n' ∨ nl = '\r' → ¬nl = d → ¬d = '"' →
      hasQuote s = false →
      recordOf ('"' :: s ++ '"' :: nl :: t) d = [s]) := by
  constructor
  · intro d nl pre t hnl hnd hne hpre
    cases pre with
    | nil => exact absurd rfl hne
    | cons p0 pre' =>
      obtain ⟨h0d, h0q, h0n, h0r⟩ := hpre p0 (.head _)
      have hpre' : ∀ x ∈ pre', ¬x = d ∧ ¬x = '\n' ∧ ¬x = '\r' := fun x hx =>
        ⟨(hpre x (.tail _ hx)).1, (hpre x (.tail _ hx)).2.2.1, (hpre x (.tail _ hx)).2.2.2⟩
      have hsl : lineSlice (p0 :: (pre' ++ nl :: t)) 0 (1 + pre'.length) = p0 :: pre' := by
        have h : p0 :: (pre' ++ nl :: t) = [] ++ (p0 :: pre') ++ nl :: t := rfl
        refine lineSlice_of_parts h rfl ?_
        show 1 + pre'.length = 0 + (p0 :: pre').length
        simp only [List.length_cons]
        omega
      unfold recordOf scanAll CsvRow.new
      simp only [scanGo, CsvRow.next, Bool.false_eq_true, if_false, if_true, nextLoop,
        List.append_eq, Nat.zero_add, List.cons_append]
      rw [if_neg h0d, if_neg h0q]
      rw [run_unquoted_nl hpre' hnl hnd t 1 0 false]
      dsimp only
      rw [if_pos rfl]
      dsimp only
      rw [hsl]
      simp [Cow.val]
  · intro d nl s t hnl hnd hdq hq0
    have hq : ¬ '"' = d := fun h => hdq h.symm
    have hnlq : ¬nl = '"' := by
      rcases hnl with h | h <;> subst h <;> decide
    have hds : doubleQuotes s = s := doubleQuotes_of_hasQuote_eq_false hq0
    have hslice : lineSlice ('"' :: (doubleQuotes s ++ '"' :: nl :: t)) 1
        ((doubleQuotes s).length + 1) = doubleQuotes s := by
      have h : '"' :: (doubleQuotes s ++ '"' :: nl :: t) =
          ['"'] ++ doubleQuotes s ++ '"' :: nl :: t := rfl
      refine lineSlice_of_parts h rfl ?_
      show (doubleQuotes s).length + 1 = 1 + (doubleQuotes s).length
      omega
    rw [← hds]
    unfold recordOf scanAll CsvRow.new
    simp only [scanGo, CsvRow.next, Bool.false_eq_true, if_false, if_true, nextLoop,
      List.append_eq, Nat.zero_add]
    rw [if_neg hq]
    rw [run_quoted_double s (nl :: t) 1 0 false]
    simp only [nextLoop, Bool.false_or, hq0]
    rw [if_neg hnlq, if_neg hnd, if_pos hnl]
    dsimp only
    rw [if_pos rfl]
    dsimp only
    have hsub : 1 + (doubleQuotes s).length + 1 - 1 = (doubleQuotes s).length + 1 := by
      omega
    rw [hsub]
    simp [maybe_unescape, hslice, Cow.val]

theorem claim_C2_witness :
    recordOf ['f', 'o', 'o', '\n', 'b', 'a', 'r'] ',' = [['f', 'o', 'o']] ∧
    recordOf ['"', 'a', '"', '\n', 'b'] ',' = [['a']] :=
  ⟨claim_C2_amended.1 ',' '\n' ['f', 'o', 'o'] ['b', 'a', 'r'] (.inl rfl) (by decide)
      (by decide) (by decide),
    claim_C2_amended.2 ',' '\n' ['a'] ['b'] (.inl rfl) (by decide) (by decide)
      (by decide)⟩
